import Mathlib

/-!
Verification of the videohash_indexer service (Rust) against its
natural-language specification.

The Rust sources are embedded shallowly:

* `src/videohash.rs`   → `VideoHash`, `VideoHash.from_binary_string`
* `src/index.rs`       → `binary_string_to_u64`, `VideoHashIndex` and its
  operations (`add`, `has_exact_match`, `ensure_index_built`,
  `find_nearest_neighbor`, `find_within_distance`, `remove`,
  `rebuild_from_bigquery`)
* `src/bigquery.rs`    → `fetch_video_hashes` (paginated fetch loop)
* `src/main.rs`        → the `search` handler and the startup sequence

Rust `u64` values are represented as `Nat` kept below `2 ^ 64` (the parser
is the only producer of codes and is proved to stay below the bound);
`HashMap<String, u64>` is represented as a key-unique association list whose
list order stands for the map's (arbitrary) iteration order; fallible Rust
functions returning `Result` become `Except`.  The external `mih_rs` crate
and the BigQuery service are not part of the repository; they are modelled
from the specification, and each such definition is marked
`Modelled from the spec:` in its doc comment.
-/

namespace VideohashIndexer

instance {ε α : Type} [DecidableEq ε] [DecidableEq α] : DecidableEq (Except ε α)
  | .ok a, .ok b =>
    if h : a = b then .isTrue (by rw [h])
    else .isFalse (by intro he; cases he; exact h rfl)
  | .ok _, .error _ => .isFalse (by intro h; cases h)
  | .error _, .ok _ => .isFalse (by intro h; cases h)
  | .error e, .error f =>
    if h : e = f then .isTrue (by rw [h])
    else .isFalse (by intro he; cases he; exact h rfl)

/-! ### Fingerprint codec: `src/videohash.rs` and the parser in `src/index.rs` -/

/-- Error kinds of the codec and of `u64::from_str_radix`.  The Rust code
uses formatted strings; the constructors here name the distinct branches. -/
inductive ParseErr where
  /-- "Binary string must be 64 bits, got {n}" -/
  | badLength (n : Nat)
  /-- "Invalid character in binary string: {c}" (`from_binary_string`) -/
  | badSymbol (c : Char)
  /-- `from_str_radix`: invalid digit -/
  | invalidDigit (c : Char)
  /-- `from_str_radix`: empty digit string -/
  | emptyDigits
  /-- `from_str_radix`: positive overflow past `u64::MAX` -/
  | overflow
deriving DecidableEq

/-- The two symbols accepted in a fingerprint string. -/
def isBinaryChar (c : Char) : Bool := c = '0' || c = '1'

/-- Numeric value of one binary character (any non-'1' counts as 0). -/
def charBit (c : Char) : Nat := if c = '1' then 1 else 0

/-- `VideoHash` from `src/videohash.rs`: a validated 64-character binary
string (the structure keeps the string itself). -/
structure VideoHash where
  hash : List Char
deriving DecidableEq

/-- `VideoHash::from_binary_string` (`src/videohash.rs` lines 8–22): rejects
a length other than 64, then rejects the first character that is neither
'0' nor '1', otherwise stores the string unchanged. -/
def VideoHash.from_binary_string (binary_str : List Char) : Except ParseErr VideoHash :=
  if binary_str.length ≠ 64 then
    .error (.badLength binary_str.length)
  else
    match binary_str.find? (fun ch => !(isBinaryChar ch)) with
    | some ch => .error (.badSymbol ch)
    | none => .ok ⟨binary_str⟩

/-- One step of `u64::from_str_radix(_, 2)`: shift in a digit, failing on a
non-binary character or on overflow past `u64::MAX`. -/
def radixStep (acc : Nat) (c : Char) : Except ParseErr Nat :=
  if isBinaryChar c then
    if 2 * acc + charBit c < 2 ^ 64 then .ok (2 * acc + charBit c)
    else .error .overflow
  else .error (.invalidDigit c)

/-- `u64::from_str_radix(s, 2)` from the Rust standard library (as used by
`binary_string_to_u64`): an optional leading '+', then at least one digit,
processed most-significant first with overflow checking. -/
def from_str_radix_two (s : List Char) : Except ParseErr Nat :=
  let digits := if s.headD ' ' = '+' then s.tail else s
  if digits.isEmpty then .error .emptyDigits
  else digits.foldlM radixStep 0

/-- `binary_string_to_u64` (`src/index.rs` lines 10–16): length check, then
`u64::from_str_radix(_, 2)`. -/
def binary_string_to_u64 (binary_str : List Char) : Except ParseErr Nat :=
  if binary_str.length ≠ 64 then .error (.badLength binary_str.length)
  else from_str_radix_two binary_str

/-- The mathematical value of a binary string, most-significant bit first. -/
def bitsVal (s : List Char) : Nat :=
  s.foldl (fun a c => 2 * a + charBit c) 0

theorem bitsVal_foldl (s : List Char) :
    ∀ acc : Nat, s.foldl (fun a c => 2 * a + charBit c) acc
      = acc * 2 ^ s.length + bitsVal s := by
  induction s with
  | nil => intro acc; simp [bitsVal]
  | cons c t ih =>
    intro acc
    show List.foldl _ (2 * acc + charBit c) t = _
    rw [ih (2 * acc + charBit c)]
    have hb : bitsVal (c :: t) = charBit c * 2 ^ t.length + bitsVal t := by
      show List.foldl _ (2 * 0 + charBit c) t = _
      rw [ih (2 * 0 + charBit c)]
      ring
    rw [hb]
    simp [List.length_cons, pow_succ]
    ring

theorem bitsVal_cons (c : Char) (t : List Char) :
    bitsVal (c :: t) = charBit c * 2 ^ t.length + bitsVal t := by
  show List.foldl _ (2 * 0 + charBit c) t = _
  rw [bitsVal_foldl t (2 * 0 + charBit c)]
  ring

theorem charBit_le_one (c : Char) : charBit c ≤ 1 := by
  unfold charBit; split <;> omega

theorem bitsVal_lt (s : List Char) : bitsVal s < 2 ^ s.length := by
  induction s with
  | nil => simp [bitsVal]
  | cons c t ih =>
    rw [bitsVal_cons]
    have hc := charBit_le_one c
    have : charBit c * 2 ^ t.length ≤ 2 ^ t.length := by
      calc charBit c * 2 ^ t.length ≤ 1 * 2 ^ t.length := by
            exact Nat.mul_le_mul_right _ hc
        _ = 2 ^ t.length := by ring
    simp only [List.length_cons, pow_succ]
    omega

/-- The MSB-first bit characterisation of `bitsVal`: dividing by
`2 ^ (len − 1 − i)` and taking the parity recovers the i-th character. -/
theorem bitsVal_div_mod (s : List Char) :
    ∀ i, i < s.length →
      bitsVal s / 2 ^ (s.length - 1 - i) % 2 = charBit (s.getD i ' ') := by
  induction s with
  | nil => intro i hi; simp at hi
  | cons c t ih =>
    intro i hi
    rw [bitsVal_cons]
    cases i with
    | zero =>
      have hlt := bitsVal_lt t
      have hpos : 0 < 2 ^ t.length := Nat.pos_pow_of_pos _ (by omega)
      have hexp : (c :: t).length - 1 - 0 = t.length := by
        simp [List.length_cons]
      rw [hexp]
      rw [Nat.mul_comm (charBit c) (2 ^ t.length), Nat.mul_add_div hpos]
      rw [Nat.div_eq_of_lt hlt]
      have := charBit_le_one c
      simp [List.getD_cons_zero]
      omega
    | succ j =>
      have hj : j < t.length := by simpa [List.length_cons] using hi
      have hexp : (c :: t).length - 1 - (j + 1) = t.length - 1 - j := by
        simp [List.length_cons]; omega
      rw [hexp]
      have hpow : 2 ^ t.length
          = 2 ^ (j + 1) * 2 ^ (t.length - 1 - j) := by
        rw [← pow_add]; congr 1; omega
      have hpos : 0 < 2 ^ (t.length - 1 - j) := Nat.pos_pow_of_pos _ (by omega)
      rw [hpow]
      rw [show charBit c * (2 ^ (j + 1) * 2 ^ (t.length - 1 - j))
            = 2 ^ (t.length - 1 - j) * (charBit c * 2 ^ (j + 1)) by ring]
      rw [Nat.mul_add_div hpos]
      rw [Nat.add_comm (charBit c * 2 ^ (j + 1)) (bitsVal t / 2 ^ (t.length - 1 - j))]
      rw [show charBit c * 2 ^ (j + 1) = charBit c * 2 ^ j * 2 by ring]
      rw [Nat.add_mul_mod_self_right]
      rw [ih j hj]
      simp [List.getD_cons_succ]

theorem radixStep_run (s : List Char) :
    ∀ acc : Nat, (∀ c ∈ s, isBinaryChar c = true) →
      acc * 2 ^ s.length + bitsVal s < 2 ^ 64 →
      s.foldlM radixStep acc = .ok (acc * 2 ^ s.length + bitsVal s) := by
  induction s with
  | nil => intro acc _ _; simp [bitsVal, pure, Except.pure]
  | cons c t ih =>
    intro acc hbin hlt
    have hc : isBinaryChar c = true := hbin c (by simp)
    have htot : acc * 2 ^ (c :: t).length + bitsVal (c :: t)
        = (2 * acc + charBit c) * 2 ^ t.length + bitsVal t := by
      rw [bitsVal_cons]; simp [List.length_cons, pow_succ]; ring
    have hlt' : (2 * acc + charBit c) * 2 ^ t.length + bitsVal t < 2 ^ 64 := by
      rw [← htot]; exact hlt
    have hstep : 2 * acc + charBit c < 2 ^ 64 := by
      have h1 : 2 * acc + charBit c ≤ (2 * acc + charBit c) * 2 ^ t.length := by
        have : 0 < 2 ^ t.length := Nat.pos_pow_of_pos _ (by omega)
        calc 2 * acc + charBit c = (2 * acc + charBit c) * 1 := by ring
          _ ≤ (2 * acc + charBit c) * 2 ^ t.length := Nat.mul_le_mul_left _ this
      omega
    have hone : radixStep acc c = .ok (2 * acc + charBit c) := by
      unfold radixStep; rw [if_pos hc, if_pos hstep]
    have : List.foldlM radixStep acc (c :: t)
        = List.foldlM radixStep (2 * acc + charBit c) t := by
      rw [List.foldlM_cons, hone]; rfl
    rw [this, ih (2 * acc + charBit c) (fun x hx => hbin x (by simp [hx])) hlt', htot]

theorem from_str_radix_two_ok (s : List Char) (hne : s ≠ [])
    (hlen : s.length ≤ 64) (hbin : ∀ c ∈ s, isBinaryChar c = true) :
    from_str_radix_two s = .ok (bitsVal s) := by
  unfold from_str_radix_two
  have hhead : ¬ s.headD ' ' = '+' := by
    cases s with
    | nil => simp at hne
    | cons c t =>
      have hc := hbin c (by simp)
      simp only [List.headD_cons]
      unfold isBinaryChar at hc
      rcases Bool.or_eq_true_iff.mp hc with h | h
      · rw [decide_eq_true_eq] at h; rw [h]; decide
      · rw [decide_eq_true_eq] at h; rw [h]; decide
  simp only [if_neg hhead]
  rw [if_neg (by simpa [List.isEmpty_iff] using hne)]
  have hb : bitsVal s < 2 ^ 64 :=
    (bitsVal_lt s).trans_le (Nat.pow_le_pow_right (by omega) hlen)
  have := radixStep_run s 0 hbin (by simpa using hb)
  simpa using this

theorem binary_string_to_u64_ok (s : List Char)
    (h64 : s.length = 64) (hbin : ∀ c ∈ s, isBinaryChar c = true) :
    binary_string_to_u64 s = .ok (bitsVal s) := by
  unfold binary_string_to_u64
  rw [if_neg (by omega)]
  exact from_str_radix_two_ok s (by rintro rfl; simp at h64) (by omega) hbin

/-- Modelled from the spec: `format(code)` "returns the 64-character
MSB-first representation" (§4.A).  No formatter exists under `src/` — the
store keeps the validated string inside `VideoHash` and never prints a
code back — so the codec's `format` operation is taken from the spec's
words. -/
def format_code (code : Nat) : List Char :=
  (List.range 64).map (fun i => if code / 2 ^ (63 - i) % 2 = 1 then '1' else '0')

/-! ### Hamming distance -/

/-- `count_ones` of a 64-bit value: the number of set bits among
positions 0–63.  For values below `2 ^ 64` this is the full popcount. -/
def popcount64 (n : Nat) : Nat :=
  (List.range 64).countP (fun i => n.testBit i)

/-- Hamming distance between two codes: `popcount(a XOR b)`
(`(a ^ b).count_ones()` in the Rust code). -/
def hammingDist (a b : Nat) : Nat := popcount64 (a ^^^ b)

/-! ### The `mih_rs` multi-index hashing engine

The engine is the external `mih_rs` crate, not code of this repository;
it is modelled from the specification's public contract (§4.B). -/

namespace mih_rs

/-- Modelled from the spec: `build(codes, B)` "constructs an engine over
the given ordered sequence; positions 0..|codes|−1 index back into the
caller's parallel identifier vector" (§4.B).  The model keeps the ordered
code sequence; positions are indices into it. -/
structure Index where
  codes : List Nat
deriving DecidableEq

/-- Engine build failure (spec §4.B: `BadPartition`). -/
inductive BuildErr where
  | badPartition
deriving DecidableEq

/-- Modelled from the spec: "B must evenly divide 64; otherwise `build`
fails with `BadPartition`" (§4.B).  `mih_rs::Index::with_blocks(codes, b)`. -/
def Index.with_blocks (codes : List Nat) (b : Nat) : Except BuildErr Index :=
  if b = 0 || 64 % b ≠ 0 then .error .badPartition else .ok ⟨codes⟩

/-- Modelled from the spec: `range(q, r)` "returns every position whose
code is within Hamming distance r of q, in unspecified order" (§4.B).
The model fixes ascending-position order, one realisable order. -/
def Index.range_search (e : Index) (q : Nat) (r : Nat) : List Nat :=
  (List.range e.codes.length).filter (fun i => hammingDist q (e.codes.getD i 0) ≤ r)

/-- Order on (distance, position) pairs: by distance, ties by position. -/
def distPosLE (a b : Nat × Nat) : Prop :=
  a.1 < b.1 ∨ (a.1 = b.1 ∧ a.2 ≤ b.2)

instance : DecidableRel distPosLE :=
  fun a b => inferInstanceAs (Decidable (_ ∨ _))

instance : IsTotal (Nat × Nat) distPosLE :=
  ⟨fun a b => by unfold distPosLE; omega⟩

instance : IsTrans (Nat × Nat) distPosLE :=
  ⟨fun a b c hab hbc => by unfold distPosLE at *; omega⟩

/-- Modelled from the spec: `topk(q, k)` "returns up to k positions whose
codes have smallest Hamming distance to q, ties broken by ascending
position" (§4.B). -/
def Index.topk_search (e : Index) (q : Nat) (k : Nat) : List Nat :=
  ((List.insertionSort distPosLE
      ((List.range e.codes.length).map
        (fun i => (hammingDist q (e.codes.getD i 0), i)))).take k).map Prod.snd

end mih_rs

/-! ### Association-list model of `HashMap<String, u64>`

The list order stands for the map's iteration order; keys are unique in
every state the service constructs. -/

/-- `HashMap::get`. -/
def lookupAssoc (l : List (String × Nat)) (k : String) : Option Nat :=
  match l with
  | [] => none
  | p :: t => if p.1 = k then some p.2 else lookupAssoc t k

/-- `HashMap::insert`: overwrites in place when the key is present,
otherwise appends. -/
def insertAssoc (l : List (String × Nat)) (k : String) (v : Nat) :
    List (String × Nat) :=
  match l with
  | [] => [(k, v)]
  | p :: t => if p.1 = k then (k, v) :: t else p :: insertAssoc t k v

/-- `HashMap::remove` (key part only). -/
def eraseAssoc (l : List (String × Nat)) (k : String) : List (String × Nat) :=
  match l with
  | [] => []
  | p :: t => if p.1 = k then t else p :: eraseAssoc t k

theorem lookup_insertAssoc (l : List (String × Nat)) (k k' : String) (v : Nat) :
    lookupAssoc (insertAssoc l k v) k'
      = if k = k' then some v else lookupAssoc l k' := by
  induction l with
  | nil => simp [insertAssoc, lookupAssoc]
  | cons p t ih =>
    by_cases hpk : p.1 = k
    · simp only [insertAssoc, if_pos hpk, lookupAssoc]
      by_cases hkk : k = k'
      · simp [hkk]
      · simp [hkk, lookupAssoc, hpk ▸ hkk, show ¬ p.1 = k' from hpk ▸ hkk]
    · simp only [insertAssoc, if_neg hpk, lookupAssoc]
      by_cases hpk' : p.1 = k'
      · have : ¬ k = k' := fun h => hpk (h ▸ hpk')
        simp [hpk', this]
      · simp [hpk', ih]

theorem lookup_getD_of_nodup (l : List (String × Nat))
    (hnd : (l.map Prod.fst).Nodup) :
    ∀ i, i < l.length →
      lookupAssoc l ((l.map Prod.fst).getD i "")
        = some ((l.map Prod.snd).getD i 0) := by
  induction l with
  | nil => intro i hi; simp at hi
  | cons p t ih =>
    intro i hi
    cases i with
    | zero => simp [lookupAssoc]
    | succ j =>
      have hj : j < t.length := by simpa using hi
      have hnd' : (t.map Prod.fst).Nodup := (List.nodup_cons.mp hnd).2
      have hnotin : p.1 ∉ t.map Prod.fst := (List.nodup_cons.mp hnd).1
      have hjm : j < (t.map Prod.fst).length := by simpa using hj
      have hmem : (t.map Prod.fst).getD j "" ∈ t.map Prod.fst := by
        rw [List.getD_eq_getElem _ _ hjm]
        exact List.getElem_mem hjm
      have hne : ¬ p.1 = (t.map Prod.fst).getD j "" := by
        intro h; exact hnotin (h ▸ hmem)
      simp only [List.map_cons, List.getD_cons_succ, lookupAssoc, if_neg hne]
      exact ih hnd' j hj

/-! ### The index store: `src/index.rs` -/

/-- Error kinds of the store operations (Rust uses boxed string errors;
the constructors name the distinct error sites). -/
inductive IndexOpErr where
  /-- an error propagated from `binary_string_to_u64` -/
  | parse (e : ParseErr)
  /-- "Failed to create MIH index: {e}" -/
  | buildFailed
  /-- "Index inconsistency: invalid vector index" -/
  | staleIndex
  /-- a panic of `hashes.get(&video_id).unwrap()` -/
  | unwrapFailed
deriving DecidableEq

/-- `VideoHashIndex` (`src/index.rs` lines 18–21): the identifier→code map
`hashes` (association list in iteration order) and the lazily built cache
`index` holding the engine and the parallel `video_ids` vector. -/
structure VideoHashIndex where
  hashes : List (String × Nat)
  index : Option (mih_rs.Index × List String)
deriving DecidableEq

/-- `VideoHashIndex::new`. -/
def VideoHashIndex.new : VideoHashIndex := ⟨[], none⟩

/-- `VideoHashIndex::add` (`src/index.rs` lines 31–45): parse the hash,
set the cached index to `None`, insert into the map. -/
def VideoHashIndex.add (st : VideoHashIndex) (video_id : String)
    (hash : VideoHash) : Except IndexOpErr VideoHashIndex :=
  match binary_string_to_u64 hash.hash with
  | .error e => .error (.parse e)
  | .ok hash_value =>
    .ok { hashes := insertAssoc st.hashes video_id hash_value, index := none }

/-- `VideoHashIndex::has_exact_match` (`src/index.rs` lines 47–60). -/
def VideoHashIndex.has_exact_match (st : VideoHashIndex) (video_id : String)
    (hash : VideoHash) : Except IndexOpErr Bool :=
  match binary_string_to_u64 hash.hash with
  | .error e => .error (.parse e)
  | .ok hash_value =>
    match lookupAssoc st.hashes video_id with
    | some existing_hash => .ok (existing_hash == hash_value)
    | none => .ok false

/-- `VideoHashIndex::ensure_index_built` (`src/index.rs` lines 62–98): if
the cache is absent and the map non-empty, materialise the (id, code)
pairs **in map iteration order** (the code collects `hashes.iter()` and
does not sort), split them into the `video_ids` and `codes` vectors, and
build the engine with 8 blocks. -/
def VideoHashIndex.ensure_index_built (st : VideoHashIndex) :
    Except IndexOpErr VideoHashIndex :=
  match st.index with
  | some _ => .ok st
  | none =>
    if st.hashes.isEmpty then .ok st
    else
      let video_id_hash_pairs := st.hashes
      let video_ids := video_id_hash_pairs.map Prod.fst
      let codes := video_id_hash_pairs.map Prod.snd
      match mih_rs.Index.with_blocks codes 8 with
      | .ok new_index => .ok { st with index := some (new_index, video_ids) }
      | .error _ => .error .buildFailed

/-- `VideoHashIndex::find_nearest_neighbor` (`src/index.rs` lines 100–133).
The Rust method mutates the cache through `ensure_index_built`; the model
returns the updated store alongside the result. -/
def VideoHashIndex.find_nearest_neighbor (st : VideoHashIndex)
    (hash : VideoHash) :
    Except IndexOpErr (VideoHashIndex × Option (String × Nat)) :=
  match binary_string_to_u64 hash.hash with
  | .error e => .error (.parse e)
  | .ok hash_value =>
    match st.ensure_index_built with
    | .error e => .error e
    | .ok st' =>
      match st'.index with
      | none => .ok (st', none)
      | some (index, video_ids) =>
        match index.topk_search hash_value 1 with
        | [] => .ok (st', none)
        | idx :: _ =>
          if video_ids.length ≤ idx then .error .staleIndex
          else
            let video_id := video_ids.getD idx ""
            match lookupAssoc st'.hashes video_id with
            | none => .error .unwrapFailed
            | some stored_hash =>
              .ok (st', some (video_id, hammingDist hash_value stored_hash))

/-- The body of the `for idx in answers` loop of `find_within_distance`
(`src/index.rs` lines 156–164): an out-of-range position is silently
skipped; an in-range position is translated through `video_ids` and its
distance recomputed from the map (`unwrap` panics when the id is gone). -/
def translateStep (video_ids : List String) (hashes : List (String × Nat))
    (hash_value : Nat) (acc : List (String × Nat)) (idx : Nat) :
    Except IndexOpErr (List (String × Nat)) :=
  if idx < video_ids.length then
    let video_id := video_ids.getD idx ""
    match lookupAssoc hashes video_id with
    | none => .error .unwrapFailed
    | some stored_hash =>
      .ok (acc ++ [(video_id, hammingDist hash_value stored_hash)])
  else .ok acc

/-- Sort key of `neighbors.sort_by_key(|&(_, dist)| dist)`: distance only
(no identifier tie-break).  Rust's `sort_by_key` is stable, as is
`List.insertionSort`. -/
def distLE (a b : String × Nat) : Prop := a.2 ≤ b.2

instance : DecidableRel distLE :=
  fun a b => inferInstanceAs (Decidable (a.2 ≤ b.2))

instance : IsTotal (String × Nat) distLE :=
  ⟨fun a b => Nat.le_total a.2 b.2⟩

instance : IsTrans (String × Nat) distLE :=
  ⟨fun _ _ _ hab hbc => Nat.le_trans hab hbc⟩

/-- `VideoHashIndex::find_within_distance` (`src/index.rs` lines 135–169):
parse, ensure the cache, run the range searcher, translate the positions
(skipping out-of-range ones), recompute the distances, and sort by
distance only. -/
def VideoHashIndex.find_within_distance (st : VideoHashIndex)
    (hash : VideoHash) (max_distance : Nat) :
    Except IndexOpErr (VideoHashIndex × List (String × Nat)) :=
  match binary_string_to_u64 hash.hash with
  | .error e => .error (.parse e)
  | .ok hash_value =>
    match st.ensure_index_built with
    | .error e => .error e
    | .ok st' =>
      match st'.index with
      | none => .ok (st', [])
      | some (index, video_ids) =>
        let answers := index.range_search hash_value max_distance
        match answers.foldlM (translateStep video_ids st'.hashes hash_value) [] with
        | .error e => .error e
        | .ok neighbors => .ok (st', List.insertionSort distLE neighbors)

/-- `VideoHashIndex::remove` (`src/index.rs` lines 171–181): remove the
key; only on a true removal set the cache to `None`.  The Rust method
always returns `Ok`, so the model returns a plain pair. -/
def VideoHashIndex.remove (st : VideoHashIndex) (video_id : String) :
    Bool × VideoHashIndex :=
  if (lookupAssoc st.hashes video_id).isSome then
    (true, { hashes := eraseAssoc st.hashes video_id, index := none })
  else (false, st)

/-- `VideoHashIndex::len`. -/
def VideoHashIndex.len (st : VideoHashIndex) : Nat := st.hashes.length

/-- `VideoHashIndex::is_empty`. -/
def VideoHashIndex.is_empty (st : VideoHashIndex) : Bool := st.len == 0

/-- Invariant Q1 (spec §3), as a decidable check: when the cache is
present, `video_ids` is the identifier projection of the map snapshot and
the engine's codes are its aligned code projection. -/
def q1 (st : VideoHashIndex) : Bool :=
  match st.index with
  | none => true
  | some (e, v) =>
    decide (v = st.hashes.map Prod.fst ∧ e.codes = st.hashes.map Prod.snd)

/-! ### The warehouse adapter: `src/bigquery.rs`

The BigQuery service itself is external.  Modelled from the spec: the
warehouse is an append-only table of rows `(id, code_string, ts)` (§3);
appends carry strictly increasing timestamps, so a warehouse state is the
list of appended `(id, code_string)` pairs in append order, and the
query's `ORDER BY created_at DESC` returns them newest first. -/

/-- A warehouse state: the `(video_id, hash_string)` rows in append
(creation-time) order, oldest first. -/
abbrev Warehouse := List (String × List Char)

/-- The per-row processing of `fetch_video_hashes` (`src/bigquery.rs`
lines 50–73): parse each row's hash with `from_binary_string`, skipping
rows that fail to parse. -/
def processRows (rows : List (String × List Char)) : List (String × VideoHash) :=
  rows.filterMap (fun p =>
    match VideoHash.from_binary_string p.2 with
    | .ok hash => some (p.1, hash)
    | .error _ => none)

/-- The `LIMIT 50000 OFFSET n` page size of `fetch_video_hashes`. -/
def batch_size : Nat := 50000

/-- The pagination loop of `fetch_video_hashes` (`src/bigquery.rs` lines
18–86): take a page, stop if it is empty, process it, stop when it is
short, otherwise advance the offset.  `remaining` is the queried table
(newest first) from the current offset on. -/
def fetchPages (remaining : List (String × List Char))
    (results : List (String × VideoHash)) : List (String × VideoHash) :=
  let page := remaining.take batch_size
  if h : page.isEmpty then results
  else if page.length < batch_size then results ++ processRows page
  else fetchPages (remaining.drop batch_size) (results ++ processRows page)
termination_by remaining.length
decreasing_by
  have hlen : page.length = batch_size := by
    have := List.length_take batch_size remaining
    have h2 : ¬ page.length < batch_size := by assumption
    simp only [page] at *
    omega
  have hne : remaining ≠ [] := by
    intro he
    subst he
    simp [page, batch_size] at hlen
  have : 0 < remaining.length := List.length_pos.mpr hne
  have hbs : 0 < batch_size := by simp [batch_size]
  simp only [List.length_drop]
  have : batch_size ≤ remaining.length := by
    have := List.length_take batch_size remaining
    simp only [page] at hlen
    omega
  omega

/-- `fetch_video_hashes` (`src/bigquery.rs` lines 11–90): run the
paginated query over the table ordered newest-first and accumulate the
parsed rows. -/
def fetch_video_hashes (table : Warehouse) : List (String × VideoHash) :=
  fetchPages table.reverse []

/-- The pagination loop visits the whole snapshot: it is the row
processing of the full (newest-first) row list. -/
theorem fetchPages_eq_aux (n : Nat) :
    ∀ remaining : List (String × List Char), remaining.length ≤ n →
      ∀ results, fetchPages remaining results = results ++ processRows remaining := by
  induction n with
  | zero =>
    intro remaining hn results
    have : remaining = [] := List.length_eq_zero.mp (by omega)
    subst this
    rw [fetchPages]
    simp [batch_size, processRows]
  | succ n ih =>
    intro remaining hn results
    rw [fetchPages]
    by_cases hemp : (remaining.take batch_size).isEmpty
    · have : remaining = [] := by
        rcases remaining with _ | ⟨p, t⟩
        · rfl
        · simp [batch_size] at hemp
      subst this
      simp [hemp, processRows]
    · rw [dif_neg hemp]
      by_cases hshort : (remaining.take batch_size).length < batch_size
      · have : remaining.take batch_size = remaining := by
          apply List.take_of_length_le
          have := List.length_take batch_size remaining
          omega

        rw [if_pos hshort, this]
      · rw [if_neg hshort]
        have hlen : (remaining.take batch_size).length = batch_size := by
          have := List.length_take batch_size remaining
          omega
        have hge : batch_size ≤ remaining.length := by
          have := List.length_take batch_size remaining
          omega
        have hlt : (remaining.drop batch_size).length ≤ n := by
          have := List.length_drop batch_size remaining
          have hbs : 0 < batch_size := by simp [batch_size]
          omega
        rw [ih _ hlt]
        rw [List.append_assoc]
        congr 1
        have : processRows (remaining.take batch_size)
              ++ processRows (remaining.drop batch_size)
            = processRows remaining := by
          unfold processRows
          rw [← List.filterMap_append, List.take_append_drop]
        rw [this]

/-- The pagination loop visits the whole snapshot. -/
theorem fetchPages_eq (remaining : List (String × List Char))
    (results : List (String × VideoHash)) :
    fetchPages remaining results = results ++ processRows remaining :=
  fetchPages_eq_aux remaining.length remaining (Nat.le_refl _) results

/-- `VideoHashIndex::rebuild_from_bigquery` (`src/index.rs` lines
191–213): fetch everything, clear the map, insert the fetched rows in
order (re-parsing each hash), drop the cache, rebuild it eagerly, and
return the new size.  On a parse error the Rust code returns early with
the map partially rebuilt; no fetched row can trigger this (each was
validated by `from_binary_string`), and the model returns the error. -/
def VideoHashIndex.rebuild_from_bigquery (st : VideoHashIndex)
    (table : Warehouse) : Except IndexOpErr (VideoHashIndex × Nat) :=
  let video_hashes := fetch_video_hashes table
  match video_hashes.foldlM
      (fun hashes p =>
        match binary_string_to_u64 p.2.hash with
        | .error e => Except.error (IndexOpErr.parse e)
        | .ok hash_value => Except.ok (insertAssoc hashes p.1 hash_value))
      ([] : List (String × Nat)) with
  | .error e => .error e
  | .ok new_hashes =>
    match VideoHashIndex.ensure_index_built ⟨new_hashes, none⟩ with
    | .error e => .error e
    | .ok st' => .ok (st', st'.len)

/-- `VideoHashIndex::needs_rebuild` (`src/index.rs` lines 215–217). -/
def VideoHashIndex.needs_rebuild (st : VideoHashIndex) : Bool := st.is_empty

/-! ### The query orchestrator: `src/main.rs` -/

/-- The externally observable calls a handler makes, in order.  Warehouse
calls may suspend; index calls are synchronous. -/
inductive Action where
  /-- `backup::backup_hash(video_id, hash)` — one warehouse append
  (with retry) -/
  | warehouseAppend (video_id : String) (hash : List Char)
  /-- `index.find_within_distance(...)` -/
  | indexQuery
  /-- `index.add(video_id, ...)` -/
  | indexAdd (video_id : String)
  /-- `backup::backup_all(entries)` — bulk warehouse append -/
  | backupAll (entries : List (String × List Char))
  /-- `bigquery::fetch_video_hashes()` — the warehouse bulk read -/
  | fetchAll
deriving DecidableEq

/-- HTTP status of a handler response. -/
inductive Status where
  | ok
  | badRequest
  | internalServerError
  | notFound
deriving DecidableEq

/-- `VideoMatch` of `src/main.rs` (lines 16–21).  The reported
`similarity_percentage` is `100.0 * (64.0 - d) / 64.0`, an exact `f64`
function of the distance for every d ≤ 64; the model keeps the distance. -/
structure VideoMatch where
  video_id : String
  distance : Nat
  is_duplicate : Bool
deriving DecidableEq

/-- `SearchResponse` of `src/main.rs` (lines 23–29). -/
structure SearchResponse where
  match_found : Bool
  match_details : Option VideoMatch
  hash_added : Bool
  backed_up : Bool
deriving DecidableEq

/-- Everything a run of the `search` handler produces: the store it
leaves behind, the HTTP status, the JSON body (when not an error body)
and the trace of external calls it made, in order. -/
structure SearchOutcome where
  state : VideoHashIndex
  status : Status
  response : Option SearchResponse
  trace : List Action
deriving DecidableEq

/-- The `search` handler (`src/main.rs` lines 42–108).  The warehouse
interaction `backup::backup_hash` is external I/O; its result enters as
`backupOutcome` (`Ok(bool)` or an error).  The handler parses, then
attempts the warehouse append recording only `backed_up`, then queries
the index with radius 10, and only on an empty result mutates the
index. -/
def search (st : VideoHashIndex) (req_video_id : String)
    (req_hash : List Char) (backupOutcome : Except String Bool) :
    SearchOutcome :=
  match VideoHash.from_binary_string req_hash with
  | .error _ => ⟨st, .badRequest, none, []⟩
  | .ok query_hash =>
    let backed_up := match backupOutcome with
      | .ok result => result
      | .error _ => false
    match st.find_within_distance query_hash 10 with
    | .error _ =>
      ⟨st, .internalServerError, none,
        [.warehouseAppend req_video_id req_hash, .indexQuery]⟩
    | .ok (st', similar_hashes) =>
      match similar_hashes with
      | (video_id, distance) :: _ =>
        ⟨st', .ok,
          some ⟨true, some ⟨video_id, distance, true⟩, false, backed_up⟩,
          [.warehouseAppend req_video_id req_hash, .indexQuery]⟩
      | [] =>
        match st'.add req_video_id query_hash with
        | .ok st'' =>
          ⟨st'', .ok, some ⟨false, none, true, backed_up⟩,
            [.warehouseAppend req_video_id req_hash, .indexQuery,
              .indexAdd req_video_id]⟩
        | .error _ =>
          ⟨st', .internalServerError, none,
            [.warehouseAppend req_video_id req_hash, .indexQuery,
              .indexAdd req_video_id]⟩

/-- The `delete_hash` handler (`src/main.rs` lines 110–125). -/
def delete_hash (st : VideoHashIndex) (video_id : String) :
    VideoHashIndex × Status :=
  match st.remove video_id with
  | (true, st') => (st', .ok)
  | (false, st') => (st', .notFound)

/-- Modelled from the spec: `main.rs` (line 162) calls
`VideoHashIndex::get_all_entries`, which exists nowhere under `src/`.
Per its use — `backup_all(entries)` sends `(video_id, hash_string)` rows
(§4.D's warehouse row shape) — it returns every entry of the map with the
code formatted back to its 64-character string. -/
def VideoHashIndex.get_all_entries (st : VideoHashIndex) :
    List (String × List Char) :=
  st.hashes.map (fun p => (p.1, format_code p.2))

/-- The startup sequence of `main` (`src/main.rs` lines 154–187): create
a fresh empty index, read its entries, and back them up to the warehouse
when there are any.  It never reads the warehouse: no call to
`bigquery::fetch_video_hashes` or `rebuild_from_bigquery` appears.  The
warehouse content (assumed reachable) is a parameter only to exhibit that
the result does not depend on it. -/
def mainStartup (warehouse : Warehouse) : VideoHashIndex × List Action :=
  let _ := warehouse
  let shared_index := VideoHashIndex.new
  let entries := shared_index.get_all_entries
  if entries.isEmpty then (shared_index, [])
  else (shared_index, [Action.backupAll entries])

/-! ### Helper lemmas -/

theorem from_binary_string_ok_inv (s : List Char) (vh : VideoHash)
    (h : VideoHash.from_binary_string s = .ok vh) :
    vh.hash = s ∧ s.length = 64 ∧ ∀ c ∈ s, isBinaryChar c = true := by
  unfold VideoHash.from_binary_string at h
  by_cases h64 : s.length ≠ 64
  · rw [if_pos h64] at h; cases h
  · rw [if_neg h64] at h
    rcases hf : s.find? (fun ch => !(isBinaryChar ch)) with _ | c
    · rw [hf] at h
      cases h
      refine ⟨rfl, by omega, fun c hc => ?_⟩
      have := List.find?_eq_none.mp hf c hc
      simpa using this
    · rw [hf] at h; cases h

theorem from_binary_string_ok (s : List Char) (h64 : s.length = 64)
    (hbin : ∀ c ∈ s, isBinaryChar c = true) :
    VideoHash.from_binary_string s = .ok ⟨s⟩ := by
  unfold VideoHash.from_binary_string
  rw [if_neg (by omega)]
  have : s.find? (fun ch => !(isBinaryChar ch)) = none :=
    List.find?_eq_none.mpr (fun c hc => by simp [hbin c hc])
  rw [this]

theorem with_blocks_eight (codes : List Nat) :
    mih_rs.Index.with_blocks codes 8 = .ok ⟨codes⟩ := by
  simp [mih_rs.Index.with_blocks]

theorem ensure_of_index_some (st : VideoHashIndex)
    (p : mih_rs.Index × List String) (h : st.index = some p) :
    st.ensure_index_built = .ok st := by
  unfold VideoHashIndex.ensure_index_built
  rw [h]

theorem ensure_of_none_empty (st : VideoHashIndex)
    (h : st.index = none) (he : st.hashes = []) :
    st.ensure_index_built = .ok st := by
  unfold VideoHashIndex.ensure_index_built
  rw [h, he]
  rfl

theorem ensure_of_none_nonempty (st : VideoHashIndex)
    (h : st.index = none) (hne : st.hashes ≠ []) :
    st.ensure_index_built
      = .ok ⟨st.hashes,
          some (⟨st.hashes.map Prod.snd⟩, st.hashes.map Prod.fst)⟩ := by
  unfold VideoHashIndex.ensure_index_built
  rw [h]
  rw [if_neg (by simpa [List.isEmpty_iff] using hne)]
  simp only [with_blocks_eight]

theorem ensure_total (st : VideoHashIndex) :
    ∃ st', st.ensure_index_built = .ok st' := by
  rcases hidx : st.index with _ | p
  · by_cases he : st.hashes = []
    · exact ⟨st, ensure_of_none_empty st hidx he⟩
    · exact ⟨_, ensure_of_none_nonempty st hidx he⟩
  · exact ⟨st, ensure_of_index_some st p hidx⟩

theorem ensure_hashes (st st' : VideoHashIndex)
    (h : st.ensure_index_built = .ok st') : st'.hashes = st.hashes := by
  rcases hidx : st.index with _ | p
  · by_cases he : st.hashes = []
    · rw [ensure_of_none_empty st hidx he] at h; cases h; rfl
    · rw [ensure_of_none_nonempty st hidx he] at h; cases h; rfl
  · rw [ensure_of_index_some st p hidx] at h; cases h; rfl

theorem ensure_q1_of_none (st st' : VideoHashIndex) (hidx : st.index = none)
    (h : st.ensure_index_built = .ok st') : q1 st' = true := by
  by_cases he : st.hashes = []
  · rw [ensure_of_none_empty st hidx he] at h
    cases h
    simp [q1, hidx]
  · rw [ensure_of_none_nonempty st hidx he] at h
    cases h
    simp [q1]

theorem ensure_q1_preserve (st st' : VideoHashIndex) (hq : q1 st = true)
    (h : st.ensure_index_built = .ok st') : q1 st' = true := by
  rcases hidx : st.index with _ | p
  · exact ensure_q1_of_none st st' hidx h
  · rw [ensure_of_index_some st p hidx] at h; cases h; exact hq

theorem translateStep_err (vids : List String)
    (hashes : List (String × Nat)) (hv : Nat) (acc : List (String × Nat))
    (i : Nat) (e : IndexOpErr)
    (h : translateStep vids hashes hv acc i = .error e) :
    e = .unwrapFailed := by
  unfold translateStep at h
  by_cases hi : i < vids.length
  · rw [if_pos hi] at h
    rcases hlk : lookupAssoc hashes (vids.getD i "") with _ | sh
    · simp only [hlk] at h
      injection h with h2
      exact h2.symm
    · simp only [hlk] at h
      cases h
  · rw [if_neg hi] at h
    cases h

theorem translate_fold_err (vids : List String)
    (hashes : List (String × Nat)) (hv : Nat) :
    ∀ (is : List Nat) (acc : List (String × Nat)) (e : IndexOpErr),
      is.foldlM (translateStep vids hashes hv) acc = .error e →
      e = .unwrapFailed := by
  intro is
  induction is with
  | nil => intro acc e hcon; simp [pure, Except.pure] at hcon
  | cons i t ih =>
    intro acc e hcon
    rw [List.foldlM_cons] at hcon
    rcases hstep : translateStep vids hashes hv acc i with e1 | acc'
    · rw [hstep] at hcon
      rw [show (Except.error e1 >>= fun b' =>
            List.foldlM (translateStep vids hashes hv) b' t)
          = (Except.error e1 : Except IndexOpErr (List (String × Nat)))
          from rfl] at hcon
      injection hcon with h2
      exact h2 ▸ translateStep_err vids hashes hv acc i e1 hstep
    · rw [hstep] at hcon
      rw [show (Except.ok acc' >>= fun b' =>
            List.foldlM (translateStep vids hashes hv) b' t)
          = List.foldlM (translateStep vids hashes hv) acc' t
          from rfl] at hcon
      exact ih acc' e hcon

/-! ### Claim C6 -/

/-- C6: `parse(s)` fails with `BadLength` exactly when `len(s) ≠ 64`
(so 63- and 65-character inputs fail with `BadLength`), fails with
`BadSymbol` exactly when the length is 64 but a character other than '0'
or '1' occurs, and otherwise succeeds; the parsed integer's i-th bit from
the MSB equals the i-th character. -/
theorem C6_parse_spec (s : List Char) :
    (s.length ≠ 64 →
      VideoHash.from_binary_string s = .error (.badLength s.length))
    ∧ (s.length = 64 → (∃ c ∈ s, isBinaryChar c = false) →
        ∃ c ∈ s, isBinaryChar c = false
          ∧ VideoHash.from_binary_string s = .error (.badSymbol c))
    ∧ (s.length = 64 → (∀ c ∈ s, isBinaryChar c = true) →
        VideoHash.from_binary_string s = .ok ⟨s⟩
        ∧ binary_string_to_u64 s = .ok (bitsVal s)
        ∧ bitsVal s < 2 ^ 64
        ∧ ∀ i, i < 64 →
            bitsVal s / 2 ^ (63 - i) % 2 = charBit (s.getD i ' ')) := by
  refine ⟨fun h64 => ?_, fun h64 hbad => ?_, fun h64 hbin => ?_⟩
  · unfold VideoHash.from_binary_string
    rw [if_pos h64]
  · rcases hf : s.find? (fun ch => !(isBinaryChar ch)) with _ | c
    · exfalso
      rcases hbad with ⟨c, hc, hcb⟩
      have := List.find?_eq_none.mp hf c hc
      simp [hcb] at this
    · have hmem : c ∈ s := List.mem_of_find?_eq_some hf
      have hcb : isBinaryChar c = false := by
        have := List.find?_some hf
        simpa using this
      refine ⟨c, hmem, hcb, ?_⟩
      unfold VideoHash.from_binary_string
      rw [if_neg (by omega), hf]
  · refine ⟨from_binary_string_ok s h64 hbin,
      binary_string_to_u64_ok s h64 hbin,
      (bitsVal_lt s).trans_le (by rw [h64]), fun i hi => ?_⟩
    have := bitsVal_div_mod s i (by omega)
    rwa [h64, show 64 - 1 - i = 63 - i by omega] at this

/-- C6 witness: the three branches at concrete inputs — 63 zeros
(BadLength), a leading '2' (BadSymbol), and 64 zeros (success). -/
theorem C6_parse_witness :
    ((List.replicate 63 '0').length ≠ 64
      ∧ VideoHash.from_binary_string (List.replicate 63 '0')
          = .error (.badLength (List.replicate 63 '0').length))
    ∧ (∃ c ∈ ('2' :: List.replicate 63 '0'), isBinaryChar c = false
        ∧ VideoHash.from_binary_string ('2' :: List.replicate 63 '0')
            = .error (.badSymbol c))
    ∧ (VideoHash.from_binary_string (List.replicate 64 '0')
          = .ok ⟨List.replicate 64 '0'⟩
        ∧ binary_string_to_u64 (List.replicate 64 '0')
            = .ok (bitsVal (List.replicate 64 '0'))) :=
  ⟨⟨by decide, (C6_parse_spec (List.replicate 63 '0')).1 (by decide)⟩,
    (C6_parse_spec ('2' :: List.replicate 63 '0')).2.1 (by decide)
      ⟨'2', by decide, by decide⟩,
    ⟨((C6_parse_spec (List.replicate 64 '0')).2.2 (by decide)
        (by decide)).1,
      ((C6_parse_spec (List.replicate 64 '0')).2.2 (by decide)
        (by decide)).2.1⟩⟩

/-! ### Claim C7 -/

/-- C7: for every valid 64-character binary string s,
`format(parse(s)) = s` (`format` is modelled from the spec; `parse` is the
codec's `from_binary_string`/`binary_string_to_u64` value `bitsVal s`). -/
theorem C7_format_parse_roundtrip (s : List Char) (h64 : s.length = 64)
    (hbin : ∀ c ∈ s, isBinaryChar c = true) :
    format_code (bitsVal s) = s := by
  apply List.ext_getElem
  · simp [format_code, h64]
  · intro i h1 h2
    have hi : i < 64 := by simpa [format_code] using h1
    have hdm := bitsVal_div_mod s i (by omega)
    rw [h64, show 64 - 1 - i = 63 - i by omega] at hdm
    have hget : s.getD i ' ' = s[i] := List.getD_eq_getElem s ' ' h2
    rw [hget] at hdm
    have hmem : s[i] ∈ s := List.getElem_mem h2
    have hb := hbin _ hmem
    unfold format_code
    rw [List.getElem_map, List.getElem_range, hdm]
    unfold isBinaryChar at hb
    rcases Bool.or_eq_true_iff.mp hb with h | h
    · rw [decide_eq_true_eq] at h
      rw [h]
      simp [charBit]
    · rw [decide_eq_true_eq] at h
      rw [h]
      simp [charBit]

/-- C7 witness: the round-trip at the string of 63 zeros and a final
one. -/
theorem C7_roundtrip_witness :
    (List.replicate 63 '0' ++ ['1']).length = 64
    ∧ format_code (bitsVal (List.replicate 63 '0' ++ ['1']))
        = List.replicate 63 '0' ++ ['1'] :=
  ⟨by decide,
    C7_format_parse_roundtrip (List.replicate 63 '0' ++ ['1'])
      (by decide) (by decide)⟩

/-! ### Claim C10 -/

/-- C10: a `VideoHash` built by `from_binary_string` always re-parses: the
internal `binary_string_to_u64` of the store operations succeeds, so the
parse-error branch of `add`, `has_exact_match`, `find_nearest_neighbor`
and `find_within_distance` is unreachable for such values. -/
theorem C10_reparse_total (s : List Char) (vh : VideoHash)
    (h : VideoHash.from_binary_string s = .ok vh) :
    binary_string_to_u64 vh.hash = .ok (bitsVal s)
    ∧ (∀ (st : VideoHashIndex) (id : String), st.add id vh
        = .ok ⟨insertAssoc st.hashes id (bitsVal s), none⟩)
    ∧ (∀ (st : VideoHashIndex) (id : String),
        ∃ b, st.has_exact_match id vh = .ok b)
    ∧ (∀ (st : VideoHashIndex) (e : ParseErr),
        st.find_nearest_neighbor vh ≠ .error (.parse e))
    ∧ (∀ (st : VideoHashIndex) (r : Nat) (e : ParseErr),
        st.find_within_distance vh r ≠ .error (.parse e)) := by
  obtain ⟨hh, h64, hbin⟩ := from_binary_string_ok_inv s vh h
  have hp : binary_string_to_u64 vh.hash = .ok (bitsVal s) := by
    rw [hh]; exact binary_string_to_u64_ok s h64 hbin
  refine ⟨hp, fun st id => ?_, fun st id => ?_, fun st e => ?_,
    fun st r e => ?_⟩
  · unfold VideoHashIndex.add
    rw [hp]
  · unfold VideoHashIndex.has_exact_match
    rw [hp]
    rcases lookupAssoc st.hashes id with _ | v
    · exact ⟨false, rfl⟩
    · exact ⟨_, rfl⟩
  · unfold VideoHashIndex.find_nearest_neighbor
    rw [hp]
    obtain ⟨st', hst'⟩ := ensure_total st
    rw [hst']
    rcases hidx : st'.index with _ | ⟨eng, vids⟩
    · simp [hidx]
    · simp only [hidx]
      rcases htk : eng.topk_search (bitsVal s) 1 with _ | ⟨idx, rest⟩
      · simp [htk]
      · simp only [htk]
        by_cases hlen : vids.length ≤ idx
        · simp [hlen]
        · rw [if_neg hlen]
          rcases hlk : lookupAssoc st'.hashes (vids.getD idx "") with _ | sh
          · simp [hlk]
          · simp [hlk]
  · unfold VideoHashIndex.find_within_distance
    rw [hp]
    obtain ⟨st', hst'⟩ := ensure_total st
    rw [hst']
    rcases hidx : st'.index with _ | ⟨eng, vids⟩
    · simp [hidx]
    · simp only [hidx]
      rcases hfold : (eng.range_search (bitsVal s) r).foldlM
          (translateStep vids st'.hashes (bitsVal s)) [] with e' | nb
      · have he' : e' = .unwrapFailed :=
          translate_fold_err vids st'.hashes (bitsVal s) _ [] e' hfold
        simp [hfold, he']
      · simp [hfold]

/-- C10 witness: the all-zeros string parses, re-parses to its value, and
`add` on the empty store takes the success branch. -/
theorem C10_reparse_witness :
    VideoHash.from_binary_string (List.replicate 64 '0')
      = .ok ⟨List.replicate 64 '0'⟩
    ∧ binary_string_to_u64 (VideoHash.mk (List.replicate 64 '0')).hash
        = .ok (bitsVal (List.replicate 64 '0'))
    ∧ VideoHashIndex.new.add "a" ⟨List.replicate 64 '0'⟩
        = .ok ⟨insertAssoc VideoHashIndex.new.hashes "a"
            (bitsVal (List.replicate 64 '0')), none⟩ :=
  ⟨by decide,
    (C10_reparse_total (List.replicate 64 '0') ⟨List.replicate 64 '0'⟩
      (by decide)).1,
    (C10_reparse_total (List.replicate 64 '0') ⟨List.replicate 64 '0'⟩
      (by decide)).2.1 VideoHashIndex.new "a"⟩

/-! ### Claim C3 -/

/-- C3: the claim fails on the code.  The startup sequence of `main`
never reads the warehouse: with the store empty and a reachable warehouse
holding one row, startup leaves the store empty and its trace contains no
bulk-fetch call — although `rebuild_from_bigquery` (defined in
`src/index.rs` but never called at startup) would have recovered the
row. -/
theorem C3_startup_no_bootstrap :
    (mainStartup [("a", List.replicate 64 '0')]).1 = VideoHashIndex.new
    ∧ (mainStartup [("a", List.replicate 64 '0')]).2 = []
    ∧ Action.fetchAll ∉ (mainStartup [("a", List.replicate 64 '0')]).2
    ∧ lookupAssoc (mainStartup [("a", List.replicate 64 '0')]).1.hashes "a"
        = none
    ∧ VideoHashIndex.new.rebuild_from_bigquery [("a", List.replicate 64 '0')]
        = .ok (⟨[("a", 0)], some (⟨[0]⟩, ["a"])⟩, 1) := by
  refine ⟨by decide, by decide, by decide, by decide, ?_⟩
  unfold VideoHashIndex.rebuild_from_bigquery fetch_video_hashes
  rw [show ([("a", List.replicate 64 '0')] : Warehouse).reverse
      = [("a", List.replicate 64 '0')] by decide]
  rw [fetchPages_eq]
  decide

/-! ### Claim C5 -/

/-- C5: every mutation of the map — `add` (including overwrites), a
`remove` that actually deletes, and bootstrap/rebuild — leaves the cached
(E, V) cell invalidated: `add` and a true `remove` leave it absent;
`rebuild_from_bigquery` clears it (it rebuilds through
`ensure_index_built` from an absent cell) and its result satisfies Q1;
and `ensure_index_built` preserves Q1, so a present cache always reflects
the current map. -/
theorem C5_invalidation :
    (∀ (st : VideoHashIndex) (id : String) (h : VideoHash) (v : Nat),
      binary_string_to_u64 h.hash = .ok v →
      st.add id h = .ok ⟨insertAssoc st.hashes id v, none⟩)
    ∧ (∀ (st : VideoHashIndex) (id : String),
        (st.remove id).1 = true → (st.remove id).2.index = none)
    ∧ (∀ (st : VideoHashIndex) (table : Warehouse)
        (st' : VideoHashIndex) (n : Nat),
        st.rebuild_from_bigquery table = .ok (st', n) →
        (∃ hs, VideoHashIndex.ensure_index_built ⟨hs, none⟩ = .ok st')
          ∧ q1 st' = true ∧ n = st'.len)
    ∧ (∀ (st st' : VideoHashIndex), q1 st = true →
        st.ensure_index_built = .ok st' → q1 st' = true) := by
  refine ⟨fun st id h v hv => ?_, fun st id hrem => ?_,
    fun st table st' n hreb => ?_, ensure_q1_preserve⟩
  · unfold VideoHashIndex.add
    rw [hv]
  · unfold VideoHashIndex.remove at hrem ⊢
    by_cases hs : (lookupAssoc st.hashes id).isSome
    · rw [if_pos hs]
    · rw [if_neg hs] at hrem
      cases hrem
  · unfold VideoHashIndex.rebuild_from_bigquery at hreb
    rcases hfold : (fetch_video_hashes table).foldlM
        (fun hashes p =>
          match binary_string_to_u64 p.2.hash with
          | .error e => Except.error (IndexOpErr.parse e)
          | .ok hash_value => Except.ok (insertAssoc hashes p.1 hash_value))
        ([] : List (String × Nat)) with e | new_hashes
    · simp only [hfold] at hreb
      cases hreb
    · simp only [hfold] at hreb
      rcases hens : VideoHashIndex.ensure_index_built ⟨new_hashes, none⟩
          with e | st''
      · simp only [hens] at hreb
        cases hreb
      · simp only [hens] at hreb
        injection hreb with h2
        injection h2 with h3 h4
        subst h3
        exact ⟨⟨new_hashes, hens⟩, ensure_q1_of_none _ _ rfl hens, h4.symm⟩

/-- C5 witness: `add` then a true `remove` at concrete states, and Q1 of
the state rebuilt from a one-row warehouse. -/
theorem C5_invalidation_witness :
    VideoHashIndex.new.add "a" ⟨List.replicate 64 '0'⟩
      = .ok ⟨[("a", 0)], none⟩
    ∧ ((⟨[("a", 0)], none⟩ : VideoHashIndex).remove "a").2.index = none
    ∧ q1 ⟨[("a", 0)], some (⟨[0]⟩, ["a"])⟩ = true := by
  refine ⟨?_, C5_invalidation.2.1 ⟨[("a", 0)], none⟩ "a" (by decide), ?_⟩
  · exact C5_invalidation.1 VideoHashIndex.new "a" ⟨List.replicate 64 '0'⟩ 0
      (by decide)
  · have hreb : VideoHashIndex.new.rebuild_from_bigquery
        [("a", List.replicate 64 '0')]
        = .ok (⟨[("a", 0)], some (⟨[0]⟩, ["a"])⟩, 1) := by
      unfold VideoHashIndex.rebuild_from_bigquery fetch_video_hashes
      rw [show ([("a", List.replicate 64 '0')] : Warehouse).reverse
          = [("a", List.replicate 64 '0')] by decide]
      rw [fetchPages_eq]
      decide
    exact (C5_invalidation.2.2.1 VideoHashIndex.new _ _ _ hreb).2.1

/-! ### Claim C8 -/

/-- C8: in the lookup-or-insert path the warehouse append is attempted
before the index is consulted or mutated, and a warehouse failure never
fails the request: the handler behaves exactly as on a successful append
that reports `false`, producing its response with `backed_up = false`
while lookup and insertion proceed normally. -/
theorem C8_backup_before_index (st : VideoHashIndex)
    (req_video_id : String) (req_hash : List Char) (qh : VideoHash)
    (hp : VideoHash.from_binary_string req_hash = .ok qh) (err : String) :
    search st req_video_id req_hash (.error err)
      = search st req_video_id req_hash (.ok false)
    ∧ (∀ outcome : Except String Bool,
        ∃ rest, (search st req_video_id req_hash outcome).trace
            = Action.warehouseAppend req_video_id req_hash :: rest
          ∧ ∀ a ∈ rest,
              a = Action.indexQuery ∨ a = Action.indexAdd req_video_id)
    ∧ (∀ resp,
        (search st req_video_id req_hash (.error err)).response = some resp →
        resp.backed_up = false) := by
  refine ⟨?_, fun outcome => ?_, fun resp hresp => ?_⟩
  · unfold search
    rw [hp]
  · unfold search
    rw [hp]
    rcases hfw : st.find_within_distance qh 10 with e | ⟨st', sims⟩
    · refine ⟨[.indexQuery], ?_, by intro a ha; simp at ha; simp [ha]⟩
      simp only [hfw]
    · rcases sims with _ | ⟨⟨vid, d⟩, tl⟩
      · rcases hadd : st'.add req_video_id qh with e2 | st''
        · refine ⟨[.indexQuery, .indexAdd req_video_id], ?_,
            by intro a ha; simp at ha; rcases ha with h | h <;> simp [h]⟩
          simp only [hfw, hadd]
        · refine ⟨[.indexQuery, .indexAdd req_video_id], ?_,
            by intro a ha; simp at ha; rcases ha with h | h <;> simp [h]⟩
          simp only [hfw, hadd]
      · refine ⟨[.indexQuery], ?_, by intro a ha; simp at ha; simp [ha]⟩
        simp only [hfw]
  · unfold search at hresp
    simp only [hp] at hresp
    rcases hfw : st.find_within_distance qh 10 with e | ⟨st', sims⟩
    · simp only [hfw] at hresp
      cases hresp
    · simp only [hfw] at hresp
      rcases sims with _ | ⟨⟨vid, d⟩, tl⟩
      · rcases hadd : st'.add req_video_id qh with e2 | st''
        · simp only [hadd] at hresp
          cases hresp
        · simp only [hadd] at hresp
          injection hresp with h2
          subst h2
          rfl
      · injection hresp with h2
        subst h2
        rfl

/-- C8 witness: a failed warehouse append on the empty store with the
all-zeros hash behaves as a successful append reporting `false`. -/
theorem C8_backup_witness :
    search VideoHashIndex.new "v1" (List.replicate 64 '0') (.error "down")
      = search VideoHashIndex.new "v1" (List.replicate 64 '0') (.ok false)
    ∧ ∃ rest,
        (search VideoHashIndex.new "v1" (List.replicate 64 '0')
            (.error "down")).trace
          = Action.warehouseAppend "v1" (List.replicate 64 '0') :: rest
        ∧ ∀ a ∈ rest, a = Action.indexQuery ∨ a = Action.indexAdd "v1" :=
  ⟨(C8_backup_before_index VideoHashIndex.new "v1" (List.replicate 64 '0')
      ⟨List.replicate 64 '0'⟩ (by decide) "down").1,
    (C8_backup_before_index VideoHashIndex.new "v1" (List.replicate 64 '0')
      ⟨List.replicate 64 '0'⟩ (by decide) "down").2.1 (.error "down")⟩

/-! ### Claim C2 -/

/-- Last-write-wins reduction of an append sequence, following the spec's
words: "for each identifier, the code of its most recent append wins". -/
def lwwCode (S : Warehouse) (id : String) : Option Nat :=
  ((S.filter (fun p => decide (p.1 = id))).getLast?).map (fun p => bitsVal p.2)

/-- What the code computes: the earliest append wins (the fetch returns
rows newest first and sequential insertion lets later rows overwrite). -/
def fwwCode (S : Warehouse) (id : String) : Option Nat :=
  (S.find? (fun p => decide (p.1 = id))).map (fun p => bitsVal p.2)

theorem lookup_foldl_insertAssoc {β : Type} (g : String × β → Nat) :
    ∀ (L : List (String × β)) (m : List (String × Nat)) (k : String),
      lookupAssoc (L.foldl (fun acc p => insertAssoc acc p.1 (g p)) m) k
        = match L.reverse.find? (fun p => decide (p.1 = k)) with
          | some p => some (g p)
          | none => lookupAssoc m k := by
  intro L
  induction L with
  | nil => intro m k; simp
  | cons c t ih =>
    intro m k
    rw [List.foldl_cons, ih]
    rw [List.reverse_cons, List.find?_append]
    rcases hft : t.reverse.find? (fun p => decide (p.1 = k)) with _ | p
    · simp only [hft, Option.none_orElse]
      by_cases hck : c.1 = k
      · simp [List.find?, hck, lookup_insertAssoc]
      · simp [List.find?, hck, lookup_insertAssoc]
    · simp [hft]

theorem processRows_ok (rows : List (String × List Char))
    (hvalid : ∀ p ∈ rows, p.2.length = 64 ∧ ∀ c ∈ p.2, isBinaryChar c = true) :
    processRows rows = rows.map (fun p => (p.1, ⟨p.2⟩)) := by
  induction rows with
  | nil => rfl
  | cons c t ih =>
    have hc := hvalid c (by simp)
    unfold processRows
    simp only [List.filterMap_cons, from_binary_string_ok c.2 hc.1 hc.2,
      List.map_cons]
    unfold processRows at ih
    rw [ih (fun p hp => hvalid p (by simp [hp]))]

theorem rebuild_fold_ok :
    ∀ (L : List (String × VideoHash)) (m : List (String × Nat)),
      (∀ p ∈ L, p.2.hash.length = 64 ∧ ∀ c ∈ p.2.hash, isBinaryChar c = true) →
      L.foldlM (fun hashes p =>
          match binary_string_to_u64 p.2.hash with
          | .error e => Except.error (IndexOpErr.parse e)
          | .ok hash_value => Except.ok (insertAssoc hashes p.1 hash_value)) m
        = .ok (L.foldl (fun acc p => insertAssoc acc p.1 (bitsVal p.2.hash)) m) := by
  intro L
  induction L with
  | nil => intro m _; rfl
  | cons c t ih =>
    intro m hvalid
    have hc := hvalid c (by simp)
    rw [List.foldlM_cons]
    rw [binary_string_to_u64_ok c.2.hash hc.1 hc.2]
    rw [show ((Except.ok (insertAssoc m c.1 (bitsVal c.2.hash))
          : Except IndexOpErr (List (String × Nat))) >>= fun b' =>
            t.foldlM (fun hashes p =>
              match binary_string_to_u64 p.2.hash with
              | .error e => Except.error (IndexOpErr.parse e)
              | .ok hash_value => Except.ok (insertAssoc hashes p.1 hash_value)) b')
        = t.foldlM (fun hashes p =>
            match binary_string_to_u64 p.2.hash with
            | .error e => Except.error (IndexOpErr.parse e)
            | .ok hash_value => Except.ok (insertAssoc hashes p.1 hash_value))
            (insertAssoc m c.1 (bitsVal c.2.hash)) from rfl]
    rw [ih _ (fun p hp => hvalid p (by simp [hp]))]
    rw [List.foldl_cons]

/-- C2 counterexample: on the append sequence
`[(a, 0⁶⁴), (a, 0⁶³1)]` (the second append is the most recent) the
bootstrap keeps code 0 — the code of the **first** append — while the
last-write-wins reduction of the sequence keeps code 1. -/
theorem C2_lww_counterexample :
    VideoHashIndex.new.rebuild_from_bigquery
        [("a", List.replicate 64 '0'), ("a", List.replicate 63 '0' ++ ['1'])]
      = .ok (⟨[("a", 0)], some (⟨[0]⟩, ["a"])⟩, 1)
    ∧ lwwCode
        [("a", List.replicate 64 '0'), ("a", List.replicate 63 '0' ++ ['1'])]
        "a" = some 1
    ∧ lookupAssoc [("a", 0)] "a" = some 0
    ∧ (some 0 : Option Nat) ≠ some 1 := by
  refine ⟨?_, by decide, by decide, by decide⟩
  unfold VideoHashIndex.rebuild_from_bigquery fetch_video_hashes
  rw [show ([("a", List.replicate 64 '0'),
        ("a", List.replicate 63 '0' ++ ['1'])] : Warehouse).reverse
      = [("a", List.replicate 63 '0' ++ ['1']), ("a", List.replicate 64 '0')]
      by decide]
  rw [fetchPages_eq]
  decide

/-- C2 amended: for any append sequence S of valid rows on an empty
warehouse, `bootstrap(fetch_all())` produces a mapping equal to the
**first**-write-wins reduction of S — for each identifier the code of its
**earliest** append wins, because `fetch_all` returns rows newest first
and sequential insertion lets later (older) rows overwrite — and the
rebuilt state satisfies Q1. -/
theorem C2_bootstrap_amended (S : Warehouse)
    (hvalid : ∀ p ∈ S, p.2.length = 64 ∧ ∀ c ∈ p.2, isBinaryChar c = true)
    (st : VideoHashIndex) :
    ∃ (st' : VideoHashIndex) (n : Nat),
      st.rebuild_from_bigquery S = .ok (st', n)
      ∧ (∀ id, lookupAssoc st'.hashes id = fwwCode S id)
      ∧ q1 st' = true := by
  have hfetch : fetch_video_hashes S
      = S.reverse.map (fun p => (p.1, ⟨p.2⟩)) := by
    unfold fetch_video_hashes
    rw [fetchPages_eq, List.nil_append]
    exact processRows_ok S.reverse
      (fun p hp => hvalid p (List.mem_reverse.mp hp))
  have hvalid' : ∀ p ∈ S.reverse.map
      (fun p => ((p.1, ⟨p.2⟩) : String × VideoHash)),
      p.2.hash.length = 64 ∧ ∀ c ∈ p.2.hash, isBinaryChar c = true := by
    intro p hp
    rw [List.mem_map] at hp
    rcases hp with ⟨q, hq, rfl⟩
    exact hvalid q (List.mem_reverse.mp hq)
  have hfold := rebuild_fold_ok
    (S.reverse.map (fun p => (p.1, ⟨p.2⟩))) [] hvalid'
  obtain ⟨st', hens⟩ := ensure_total
    ⟨(S.reverse.map (fun p => ((p.1, ⟨p.2⟩) : String × VideoHash))).foldl
        (fun acc p => insertAssoc acc p.1 (bitsVal p.2.hash)) [], none⟩
  refine ⟨st', st'.len, ?_, ?_, ensure_q1_of_none _ _ rfl hens⟩
  · unfold VideoHashIndex.rebuild_from_bigquery
    simp only [hfetch, hfold, hens]
  · intro id
    rw [ensure_hashes _ _ hens]
    show lookupAssoc _ id = _
    rw [List.foldl_map]
    have := lookup_foldl_insertAssoc (fun p : String × List Char => bitsVal p.2)
      S.reverse [] id
    simp only at this
    rw [this, List.reverse_reverse]
    unfold fwwCode
    rcases hf : S.find? (fun p => decide (p.1 = id)) with _ | p <;>
      rw [hf] <;> rfl

/-- C2 amended witness: the counterexample's two-append sequence, where
the earliest append's code 0 wins. -/
theorem C2_bootstrap_witness :
    (∀ p ∈ ([("a", List.replicate 64 '0'),
        ("a", List.replicate 63 '0' ++ ['1'])] : Warehouse),
      p.2.length = 64 ∧ ∀ c ∈ p.2, isBinaryChar c = true)
    ∧ ∃ (st' : VideoHashIndex) (n : Nat),
        VideoHashIndex.new.rebuild_from_bigquery
            [("a", List.replicate 64 '0'),
              ("a", List.replicate 63 '0' ++ ['1'])]
          = .ok (st', n)
        ∧ (∀ id, lookupAssoc st'.hashes id = fwwCode
            [("a", List.replicate 64 '0'),
              ("a", List.replicate 63 '0' ++ ['1'])] id)
        ∧ q1 st' = true :=
  ⟨by decide,
    C2_bootstrap_amended
      [("a", List.replicate 64 '0'), ("a", List.replicate 63 '0' ++ ['1'])]
      (by decide) VideoHashIndex.new⟩

/-! ### Claim C4 -/

/-- C4 counterexample: two stores holding the *same mapping* — their pair
lists are permutations with identical lookups on every present key — but
in different iteration orders build **different** (E, V) (the lazy build
does not sort by identifier), and a tied nearest-neighbor query (distance
1 to both codes) returns a different identifier on each. -/
theorem C4_determinism_counterexample :
    ([(("a" : String), (0 : Nat)), ("b", 3)]).Perm [("b", 3), ("a", 0)]
    ∧ lookupAssoc [("a", 0), ("b", 3)] "a" = lookupAssoc [("b", 3), ("a", 0)] "a"
    ∧ lookupAssoc [("a", 0), ("b", 3)] "b" = lookupAssoc [("b", 3), ("a", 0)] "b"
    ∧ VideoHashIndex.ensure_index_built ⟨[("a", 0), ("b", 3)], none⟩
        = .ok ⟨[("a", 0), ("b", 3)], some (⟨[0, 3]⟩, ["a", "b"])⟩
    ∧ VideoHashIndex.ensure_index_built ⟨[("b", 3), ("a", 0)], none⟩
        = .ok ⟨[("b", 3), ("a", 0)], some (⟨[3, 0]⟩, ["b", "a"])⟩
    ∧ (["a", "b"] : List String) ≠ ["b", "a"]
    ∧ VideoHashIndex.find_nearest_neighbor ⟨[("a", 0), ("b", 3)], none⟩
        ⟨List.replicate 63 '0' ++ ['1']⟩
      = .ok (⟨[("a", 0), ("b", 3)], some (⟨[0, 3]⟩, ["a", "b"])⟩,
          some ("a", 1))
    ∧ VideoHashIndex.find_nearest_neighbor ⟨[("b", 3), ("a", 0)], none⟩
        ⟨List.replicate 63 '0' ++ ['1']⟩
      = .ok (⟨[("b", 3), ("a", 0)], some (⟨[3, 0]⟩, ["b", "a"])⟩,
          some ("b", 1))
    ∧ ("a" : String) ≠ "b" :=
  ⟨List.Perm.swap ("b", 3) ("a", 0) [], by decide, by decide, by decide,
    by decide, by decide, by decide, by decide, by decide⟩

/-- C4 amended: the lazy build materialises the pairs in the snapshot's
iteration order without sorting by identifier: V is the identifier
projection of the snapshot and the engine is built over the aligned code
projection, and rebuilding from the resulting state is idempotent (the
same snapshot always yields the same (E, V)); but V is a function of the
snapshot order, not of the mapping alone — two stores with equal mapping
and different iteration orders can build different (E, V) and answer tied
queries differently (see the counterexample). -/
theorem C4_build_amended (st : VideoHashIndex) (hidx : st.index = none)
    (hne : st.hashes ≠ []) :
    st.ensure_index_built
      = .ok ⟨st.hashes,
          some (⟨st.hashes.map Prod.snd⟩, st.hashes.map Prod.fst)⟩
    ∧ VideoHashIndex.ensure_index_built
        ⟨st.hashes, some (⟨st.hashes.map Prod.snd⟩, st.hashes.map Prod.fst)⟩
      = .ok ⟨st.hashes,
          some (⟨st.hashes.map Prod.snd⟩, st.hashes.map Prod.fst)⟩ :=
  ⟨ensure_of_none_nonempty st hidx hne, ensure_of_index_some _ _ rfl⟩

/-- C4 amended witness: the build at a concrete one-entry snapshot. -/
theorem C4_build_witness :
    (⟨[("a", 0)], none⟩ : VideoHashIndex).index = none
    ∧ ([(("a" : String), (0 : Nat))] ≠ [])
    ∧ VideoHashIndex.ensure_index_built ⟨[("a", 0)], none⟩
        = .ok ⟨[("a", 0)], some (⟨[0]⟩, ["a"])⟩ :=
  ⟨rfl, by decide,
    (C4_build_amended ⟨[("a", 0)], none⟩ rfl (by decide)).1⟩

/-! ### Claim C9 -/

theorem find_within_no_stale (st : VideoHashIndex) (h : VideoHash)
    (r : Nat) : st.find_within_distance h r ≠ .error .staleIndex := by
  intro hcon
  unfold VideoHashIndex.find_within_distance at hcon
  rcases hp : binary_string_to_u64 h.hash with e | v
  · simp only [hp] at hcon
    cases hcon
  · obtain ⟨st', hst'⟩ := ensure_total st
    simp only [hp, hst'] at hcon
    rcases hidx : st'.index with _ | ⟨eng, vids⟩
    · simp only [hidx] at hcon
      cases hcon
    · simp only [hidx] at hcon
      rcases hfold : (eng.range_search v r).foldlM
          (translateStep vids st'.hashes v) [] with e' | nb
      · simp only [hfold] at hcon
        injection hcon with h2
        have := translate_fold_err vids st'.hashes v _ [] e' hfold
        rw [this] at h2
        cases h2
      · simp only [hfold] at hcon
        cases hcon

/-- C9 counterexample: on a store whose cached engine knows two codes
while V holds a single identifier (the stale shape the claim describes),
`find_within_distance` does **not** return a `StaleIndex` error — it
silently skips the out-of-range position and returns the remaining
result. -/
theorem C9_stale_counterexample :
    VideoHashIndex.find_within_distance
        ⟨[("a", 0)], some (⟨[0, 1]⟩, ["a"])⟩
        ⟨List.replicate 63 '0' ++ ['1']⟩ 64
      = .ok (⟨[("a", 0)], some (⟨[0, 1]⟩, ["a"])⟩, [("a", 1)])
    ∧ VideoHashIndex.find_within_distance
        ⟨[("a", 0)], some (⟨[0, 1]⟩, ["a"])⟩
        ⟨List.replicate 63 '0' ++ ['1']⟩ 64
      ≠ .error .staleIndex :=
  ⟨by decide, by decide⟩

/-- C9 amended: only `find_nearest_neighbor` turns an out-of-range engine
position into an error ("Index inconsistency: invalid vector index");
`find_within_distance` can never return that error — it skips
out-of-range positions silently — and the caller does not retry: the
`search` handler consults the index at most once per request. -/
theorem C9_stale_amended :
    (∀ (st : VideoHashIndex) (eng : mih_rs.Index) (vids : List String)
        (h : VideoHash) (v idx : Nat) (rest : List Nat),
      binary_string_to_u64 h.hash = .ok v →
      st.index = some (eng, vids) →
      eng.topk_search v 1 = idx :: rest →
      vids.length ≤ idx →
      st.find_nearest_neighbor h = .error .staleIndex)
    ∧ (∀ (st : VideoHashIndex) (h : VideoHash) (r : Nat),
        st.find_within_distance h r ≠ .error .staleIndex)
    ∧ (∀ (st : VideoHashIndex) (vid : String) (hs : List Char)
        (outcome : Except String Bool),
        (search st vid hs outcome).trace.countP
          (fun a => decide (a = Action.indexQuery)) ≤ 1) := by
  refine ⟨fun st eng vids h v idx rest hv hidx htk hlen => ?_,
    find_within_no_stale, fun st vid hs outcome => ?_⟩
  · unfold VideoHashIndex.find_nearest_neighbor
    rw [hv, ensure_of_index_some st (eng, vids) hidx]
    simp only [hidx, htk]
    rw [if_pos hlen]
  · unfold search
    rcases hq : VideoHash.from_binary_string hs with e | qh
    · simp [hq]
    · simp only [hq]
      rcases hfw : st.find_within_distance qh 10 with e | ⟨st', sims⟩
      · simp [hfw, List.countP_cons]
      · simp only [hfw]
        rcases sims with _ | ⟨⟨vid', d⟩, tl⟩
        · rcases hadd : st'.add vid qh with e2 | st''
          · simp [hadd, List.countP_cons]
          · simp [hadd, List.countP_cons]
        · simp [List.countP_cons]

/-- C9 amended witness: the concrete stale store of the counterexample:
`find_nearest_neighbor` errors there while `find_within_distance` does
not, and a concrete `search` run consults the index exactly once. -/
theorem C9_stale_witness :
    binary_string_to_u64 (List.replicate 63 '0' ++ ['1']) = .ok 1
    ∧ mih_rs.Index.topk_search ⟨[0, 1]⟩ 1 1 = [1]
    ∧ VideoHashIndex.find_nearest_neighbor
        ⟨[("a", 0)], some (⟨[0, 1]⟩, ["a"])⟩
        ⟨List.replicate 63 '0' ++ ['1']⟩
      = .error .staleIndex
    ∧ VideoHashIndex.find_within_distance
        ⟨[("a", 0)], some (⟨[0, 1]⟩, ["a"])⟩
        ⟨List.replicate 63 '0' ++ ['1']⟩ 0
      ≠ .error .staleIndex
    ∧ (search VideoHashIndex.new "v1" (List.replicate 64 '0')
          (.ok true)).trace.countP
        (fun a => decide (a = Action.indexQuery)) ≤ 1 :=
  ⟨by decide, by decide,
    C9_stale_amended.1 ⟨[("a", 0)], some (⟨[0, 1]⟩, ["a"])⟩ ⟨[0, 1]⟩ ["a"]
      ⟨List.replicate 63 '0' ++ ['1']⟩ 1 1 [] (by decide) rfl (by decide)
      (by decide),
    C9_stale_amended.2.1 ⟨[("a", 0)], some (⟨[0, 1]⟩, ["a"])⟩
      ⟨List.replicate 63 '0' ++ ['1']⟩ 0,
    C9_stale_amended.2.2 VideoHashIndex.new "v1" (List.replicate 64 '0')
      (.ok true)⟩

/-! ### Claim C1 -/

/-- The exact answer set of a radius query: every entry of the map whose
code lies within distance r of the query, each paired with its true
Hamming distance, in map order. -/
def withinPairs (M : List (String × Nat)) (q r : Nat) :
    List (String × Nat) :=
  M.filterMap (fun p =>
    if hammingDist q p.2 ≤ r then some (p.1, hammingDist q p.2) else none)

theorem range_filter_map_getD {α β : Type} (L : List α) (d : α)
    (p : α → Bool) (f : α → β) :
    ((List.range L.length).filter (fun i => p (L.getD i d))).map
        (fun i => f (L.getD i d))
      = L.filterMap (fun x => if p x then some (f x) else none) := by
  induction L with
  | nil => rfl
  | cons x t ih =>
    have hcompP : ((fun i => p ((x :: t).getD i d)) ∘ Nat.succ)
        = fun i => p (t.getD i d) := funext fun i => by simp
    have hcompF : ((fun i => f ((x :: t).getD i d)) ∘ Nat.succ)
        = fun i => f (t.getD i d) := funext fun i => by simp
    rw [List.length_cons, List.range_succ_eq_map, List.filter_cons]
    by_cases hx : p x
    · rw [List.filterMap_cons]
      simp only [List.getD_cons_zero, hx, if_pos, List.map_cons]
      rw [List.filter_map, hcompP, List.map_map, hcompF, ih]
    · rw [List.filterMap_cons]
      simp only [List.getD_cons_zero, hx]
      rw [if_neg (by simp [hx])]
      simp only [Bool.false_eq_true, if_false]
      rw [List.filter_map, hcompP, List.map_map, hcompF, ih]

theorem translate_fold_ok (vids : List String) (M : List (String × Nat))
    (q : Nat) (cval : Nat → Nat) :
    ∀ (is : List Nat) (acc : List (String × Nat)),
      (∀ i ∈ is, i < vids.length
        ∧ lookupAssoc M (vids.getD i "") = some (cval i)) →
      is.foldlM (translateStep vids M q) acc
        = .ok (acc ++ is.map
            (fun i => (vids.getD i "", hammingDist q (cval i)))) := by
  intro is
  induction is with
  | nil => intro acc _; simp [pure, Except.pure]
  | cons i t ih =>
    intro acc hmem
    obtain ⟨hi, hlk⟩ := hmem i (by simp)
    rw [List.foldlM_cons]
    have hstep : translateStep vids M q acc i
        = .ok (acc ++ [(vids.getD i "", hammingDist q (cval i))]) := by
      unfold translateStep
      rw [if_pos hi]
      simp only [hlk]
    rw [hstep]
    rw [show ((Except.ok (acc ++ [(vids.getD i "", hammingDist q (cval i))])
          : Except IndexOpErr (List (String × Nat))) >>= fun b' =>
            t.foldlM (translateStep vids M q) b')
        = t.foldlM (translateStep vids M q)
            (acc ++ [(vids.getD i "", hammingDist q (cval i))]) from rfl]
    rw [ih _ (fun j hj => hmem j (by simp [hj]))]
    simp

theorem within_core (M : List (String × Nat))
    (hnd : (M.map Prod.fst).Nodup) (v r : Nat) :
    (mih_rs.Index.range_search ⟨M.map Prod.snd⟩ v r).foldlM
        (translateStep (M.map Prod.fst) M v) []
      = .ok (withinPairs M v r) := by
  have hmem : ∀ i ∈ mih_rs.Index.range_search ⟨M.map Prod.snd⟩ v r,
      i < (M.map Prod.fst).length
        ∧ lookupAssoc M ((M.map Prod.fst).getD i "")
            = some ((M.map Prod.snd).getD i 0) := by
    intro i hi
    have h1 : i ∈ List.range (M.map Prod.snd).length :=
      List.mem_of_mem_filter hi
    rw [List.mem_range] at h1
    have hiM : i < M.length := by simpa using h1
    exact ⟨by simpa using hiM, lookup_getD_of_nodup M hnd i hiM⟩
  rw [translate_fold_ok (M.map Prod.fst) M v
      (fun i => (M.map Prod.snd).getD i 0) _ [] hmem, List.nil_append]
  congr 1
  unfold mih_rs.Index.range_search
  have hlen : (⟨M.map Prod.snd⟩ : mih_rs.Index).codes.length = M.length := by
    simp
  rw [hlen]
  have hgd1 : ∀ i ∈ List.range M.length,
      (M.map Prod.snd).getD i 0 = (M.getD i ("", 0)).2 := by
    intro i hi
    rw [List.mem_range] at hi
    rw [List.getD_eq_getElem _ _ (by simpa using hi),
      List.getD_eq_getElem _ _ hi, List.getElem_map]
  have hgd2 : ∀ i ∈ List.range M.length,
      (M.map Prod.fst).getD i "" = (M.getD i ("", 0)).1 := by
    intro i hi
    rw [List.mem_range] at hi
    rw [List.getD_eq_getElem _ _ (by simpa using hi),
      List.getD_eq_getElem _ _ hi, List.getElem_map]
  have hfeq : ((List.range M.length).filter
        (fun i => hammingDist v ((⟨M.map Prod.snd⟩ : mih_rs.Index).codes.getD i 0) ≤ r))
      = (List.range M.length).filter
        (fun i => hammingDist v ((M.getD i ("", 0)).2) ≤ r) := by
    apply List.filter_congr
    intro i hi
    simp only [hgd1 i hi]
  rw [hfeq]
  have hmeq : ((List.range M.length).filter
        (fun i => hammingDist v ((M.getD i ("", 0)).2) ≤ r)).map
          (fun i => ((M.map Prod.fst).getD i "",
            hammingDist v ((M.map Prod.snd).getD i 0)))
      = ((List.range M.length).filter
        (fun i => hammingDist v ((M.getD i ("", 0)).2) ≤ r)).map
          (fun i => ((M.getD i ("", 0)).1,
            hammingDist v ((M.getD i ("", 0)).2))) := by
    apply List.map_congr_left
    intro i hi
    have him := List.mem_of_mem_filter hi
    rw [hgd1 i him, hgd2 i him]
  rw [hmeq]
  have := range_filter_map_getD M ("", 0)
    (fun x => decide (hammingDist v x.2 ≤ r))
    (fun x => (x.1, hammingDist v x.2))
  simp only [decide_eq_true_eq] at this
  rw [this]
  unfold withinPairs
  rfl

/-- C1 counterexample: on the store whose snapshot order is
`[(b, 0), (a, 0)]`, the all-zeros query at radius 0 returns
`[(b, 0), (a, 0)]` — both distances tie at 0, yet the identifiers are not
in ascending order, because the code sorts by distance only (Rust's
stable `sort_by_key`) and never tie-breaks by identifier. -/
theorem C1_tiebreak_counterexample :
    VideoHashIndex.find_within_distance ⟨[("b", 0), ("a", 0)], none⟩
        ⟨List.replicate 64 '0'⟩ 0
      = .ok (⟨[("b", 0), ("a", 0)], some (⟨[0, 0]⟩, ["b", "a"])⟩,
          [("b", 0), ("a", 0)])
    ∧ [(("b" : String), (0 : Nat)), ("a", 0)] ≠ [("a", 0), ("b", 0)]
    ∧ ("a" : String) ≠ "b" ∧ ('a' : Char) < 'b' :=
  ⟨by decide, by decide, by decide, by decide⟩

/-- C1 amended: for every consistent store state (invariant Q1, unique
keys), every parseable query and every radius, `find_within_distance`
returns exactly the stable distance-sort of the exact answer set — a
permutation of `{ (id, hamming(M[id], q)) | hamming(M[id], q) ≤ r }`
sorted by distance ascending, each identifier paired with its true
recomputed Hamming distance; ties keep snapshot order and are **not**
re-sorted by identifier (see the counterexample). -/
theorem C1_within_distance_amended (st : VideoHashIndex)
    (hq1 : q1 st = true) (hnd : (st.hashes.map Prod.fst).Nodup)
    (h : VideoHash) (v : Nat) (hv : binary_string_to_u64 h.hash = .ok v)
    (r : Nat) :
    ∃ st' : VideoHashIndex,
      st.find_within_distance h r
        = .ok (st', List.insertionSort distLE (withinPairs st.hashes v r))
      ∧ st'.hashes = st.hashes
      ∧ (List.insertionSort distLE (withinPairs st.hashes v r)).Perm
          (withinPairs st.hashes v r)
      ∧ List.Sorted distLE
          (List.insertionSort distLE (withinPairs st.hashes v r)) := by
  have hperm := List.perm_insertionSort distLE (withinPairs st.hashes v r)
  have hsorted := List.sorted_insertionSort distLE (withinPairs st.hashes v r)
  unfold VideoHashIndex.find_within_distance
  rw [hv]
  rcases hidx : st.index with _ | ⟨eng, vids⟩
  · by_cases he : st.hashes = []
    · refine ⟨st, ?_, rfl, hperm, hsorted⟩
      rw [ensure_of_none_empty st hidx he]
      simp only [hidx, he]
      unfold withinPairs
      rfl
    · refine ⟨⟨st.hashes,
        some (⟨st.hashes.map Prod.snd⟩, st.hashes.map Prod.fst)⟩,
        ?_, rfl, hperm, hsorted⟩
      rw [ensure_of_none_nonempty st hidx he]
      simp only [within_core st.hashes hnd v r]
  · have hq1' := hq1
    unfold q1 at hq1'
    rw [hidx] at hq1'
    rw [decide_eq_true_eq] at hq1'
    obtain ⟨hvids, hcodes⟩ := hq1'
    have hengeq : eng = ⟨st.hashes.map Prod.snd⟩ := by
      cases eng
      simp only [mih_rs.Index.mk.injEq]
      exact hcodes
    subst hvids
    subst hengeq
    refine ⟨st, ?_, rfl, hperm, hsorted⟩
    rw [ensure_of_index_some st _ hidx]
    simp only [hidx]
    simp only [within_core st.hashes hnd v r]

/-- C1 amended witness: the one-entry store `[(a, 0)]` queried with the
all-zeros code at radius 0 returns exactly `[(a, 0)]`. -/
theorem C1_within_distance_witness :
    q1 ⟨[("a", 0)], none⟩ = true
    ∧ ([(("a" : String), (0 : Nat))].map Prod.fst).Nodup
    ∧ binary_string_to_u64 (List.replicate 64 '0') = .ok 0
    ∧ ∃ st' : VideoHashIndex,
        VideoHashIndex.find_within_distance ⟨[("a", 0)], none⟩
            ⟨List.replicate 64 '0'⟩ 0
          = .ok (st', List.insertionSort distLE (withinPairs [("a", 0)] 0 0))
        ∧ st'.hashes = [("a", 0)]
        ∧ (List.insertionSort distLE (withinPairs [("a", 0)] 0 0)).Perm
            (withinPairs [("a", 0)] 0 0)
        ∧ List.Sorted distLE
            (List.insertionSort distLE (withinPairs [("a", 0)] 0 0)) :=
  ⟨by decide, by decide, by decide,
    C1_within_distance_amended ⟨[("a", 0)], none⟩ (by decide) (by decide)
      ⟨List.replicate 64 '0'⟩ 0 (by decide) 0⟩

end VideohashIndexer
